import Mathlib

/-!
# Verification of kerncraft's benchmark model (kerncraft/models/benchmark.py)

Shallow embedding of the register-descriptor expander (`group_iterator`,
`register_options`), the event-string renderer (`eventstr`), the minimal-run
scheduler (`build_minimal_runs`), the likwid-output parser of
`Benchmark.perfctr`, the calibration loop and the counter-to-symbol
resolution of `Benchmark.analyze`.

Modelling conventions:
* Python strings are `List Char` (`Str` below).
* Python generators are modelled by the finite list of values they yield,
  paired with a `Bool` that is `true` when fully draining the generator
  raises an exception after those yields.
* Python dictionaries are insertion-ordered association lists; assignment
  `d[k] = v` replaces the value in place when `k` is present and appends
  `(k, v)` otherwise (`aset`), matching CPython's ordering guarantees.
* Python exceptions are the explicit error type `PyErr`; Python floats in
  the calibration loop are modelled as exact rationals.
* `while` loops are modelled with a fuel parameter; `Res.fuelOut` for all
  fuels means the loop never terminates.
-/

set_option maxRecDepth 4000
set_option synthInstance.maxSize 1024

abbrev Str := List Char

/-- The Python exceptions that the modelled code can raise. -/
inductive PyErr where
  | attributeError
  | typeError
  | keyErr (key : Str)
  | zeroDivisionError
deriving DecidableEq

/-- Outcome of running a fueled loop: normal value, raised exception, or
fuel exhausted (the loop is still running). -/
inductive Res (α : Type) where
  | ok (val : α)
  | exn (e : PyErr)
  | fuelOut
deriving DecidableEq

def exceptDecEq {ε α : Type} [DecidableEq ε] [DecidableEq α] :
    (a b : Except ε α) → Decidable (a = b)
  | .error e, .error e' =>
    if h : e = e' then isTrue (by rw [h]) else isFalse (by intro c; cases c; exact h rfl)
  | .ok a, .ok a' =>
    if h : a = a' then isTrue (by rw [h]) else isFalse (by intro c; cases c; exact h rfl)
  | .error _, .ok _ => isFalse (by intro c; cases c)
  | .ok _, .error _ => isFalse (by intro c; cases c)

instance {ε α : Type} [DecidableEq ε] [DecidableEq α] : DecidableEq (Except ε α) :=
  exceptDecEq

section AssocHelpers

variable {α : Type} {κ : Type} {ν : Type} [DecidableEq α] [DecidableEq κ]

/-- Python `list.index`: index of the first occurrence (total here; the
callers below only use it on members). -/
def pyIndexOf : List α → α → Nat
  | [], _ => 0
  | a :: l, b => if a = b then 0 else pyIndexOf l b + 1

/-- Dictionary lookup `d[k]` / `k in d` on an insertion-ordered assoc list. -/
def alookup : List (κ × ν) → κ → Option ν
  | [], _ => none
  | (k', v) :: l, k => if k' = k then some v else alookup l k

/-- Dictionary assignment `d[k] = v`: replace in place if the key exists,
append otherwise (CPython insertion-order semantics). -/
def aset : List (κ × ν) → κ → ν → List (κ × ν)
  | [], k, v => [(k, v)]
  | (k', v') :: l, k, v => if k' = k then (k, v) :: l else (k', v') :: aset l k v

end AssocHelpers

/-- Python `str.split(sep)` (on a single-character separator):
always returns at least one piece; `"".split(sep) = [""]`. -/
def splitSep (sep : Char) : Str → List Str
  | [] => [[]]
  | c :: rest =>
    let r := splitSep sep rest
    if c = sep then [] :: r
    else
      match r with
      | [] => [[c]]
      | s :: tl => (c :: s) :: tl

/-! ## group_iterator (benchmark.py lines 16-42) -/

/-- `string.ascii_letters + string.digits`: the fixed alphabet used for
dash ranges. -/
def ordered_chars : Str :=
  "abcdefghijklmnopqrstuvwxyzABCDEFGHIJKLMNOPQRSTUVWXYZ0123456789".toList

/-- The regex class `[a-zA-Z0-9]` used by the `seq` alternative of the
tokenizer in `group_iterator`. -/
def isGroupChar (c : Char) : Bool :=
  decide (('a' ≤ c ∧ c ≤ 'z') ∨ ('A' ≤ c ∧ c ≤ 'Z') ∨ ('0' ≤ c ∧ c ≤ '9'))

/-- `ordered_chars.index c` (Python `str.index`; total model, only applied
to members of `ordered_chars`). -/
def charIndex (c : Char) : Nat := pyIndexOf ordered_chars c

/-- `for i in range(ordered_chars.index(start), ordered_chars.index(end) + 1):
yield ordered_chars[i]` — empty when the end index precedes the start index. -/
def rangeChars (a b : Char) : Str :=
  (ordered_chars.drop (charIndex a)).take (charIndex b + 1 - charIndex a)

/-- `group_iterator` (benchmark.py lines 16-42).  `re.finditer` with pattern
`(?P<seq>[a-zA-Z0-9]-[a-zA-Z0-9])|(?P<chr>.)` scans left to right, preferring
a three-character dash sequence, falling back to any single character; `.`
does not match a newline, so an unmatched newline character is skipped.
When the dash sequence fails on `a :: '-' :: b :: rest` (because `a` or `b`
is outside `[a-zA-Z0-9]`), the scan emits `a` (unless it is a newline),
then necessarily emits the literal `'-'` (the dash is not alphanumeric, so
no sequence can start there, and it is not a newline), and resumes at `b`. -/
def group_iterator : Str → Str
  | [] => []
  | a :: '-' :: b :: rest =>
    if isGroupChar a && isGroupChar b then rangeChars a b ++ group_iterator rest
    else if a = '\n' then '-' :: group_iterator (b :: rest)
    else a :: '-' :: group_iterator (b :: rest)
  | a :: rest => if a = '\n' then group_iterator rest else a :: group_iterator rest

/-! ## register_options (benchmark.py lines 45-80)

The tokenizer regex is `\[(?P<grp>[^]]+)\]|(?P<chr>.)`, applied with
`re.match` to the head of each `|`-separated piece.  `register_options` is a
generator; we model a full drain of it as the pair
(list of yielded values, does draining raise).  An `AttributeError` is raised
exactly when `re.match` returns `None` (empty piece, or a piece starting with
a newline): the code then calls `.group` on `None`. -/

/-- Index of the first `']'` in a string, if any. -/
def findClose : Str → Option Nat
  | [] => none
  | c :: rest => if c = ']' then some 0 else (findClose rest).map (· + 1)

/-- One `re.match` of the tokenizer against `u`: returns the expansion
`current` of the matched token together with the unmatched remainder
`u[m.end():]`, or `none` when the regex does not match (which makes the
source raise `AttributeError`).  A bracket group needs a non-empty body
before the first `']'`; otherwise (as for `[]` or an unclosed `[`) the
bracket degenerates to the literal character `[`. -/
def tokenizeHead : Str → Option (List Char × Str)
  | [] => none
  | c :: rest =>
    if c = '[' ∧ 1 ≤ (findClose rest).getD 0 then
      some (group_iterator (rest.take ((findClose rest).getD 0)),
            rest.drop ((findClose rest).getD 0 + 1))
    else if c = '\n' then none
    else some ([c], rest)

/-- Drain of `register_options u` for a pipe-free piece `u` (the recursive
calls in the source are always on non-empty pipe-free suffixes, where the
function behaves exactly like this).  The `Nat` argument is structural fuel;
it is always called with `u.length`, which suffices because each token
consumes at least one character (`pieceRunF_congr` below).  The fuel-0 value
equals the value on the empty string, so the two base cases agree.

In the source, `for c in current: for r in register_options(u[m.end():])`:
when the inner drain raises, only the first `c` is reached, so the outer
generator yields `c + r` for the inner yields `r` and then raises; when
`current` is empty the inner generator is never pulled, so a pending inner
error is never triggered. -/
def pieceRunF : Nat → Str → List Str × Bool
  | 0, _ => ([], true)
  | fuel + 1, u =>
    match tokenizeHead u with
    | none => ([], true)
    | some (current, rest) =>
      if rest.isEmpty then (current.map fun c => [c], false)
      else
        let inner := pieceRunF fuel rest
        match inner.2, current with
        | false, cur => (cur.flatMap fun c => inner.1.map fun r => c :: r, false)
        | true, [] => ([], false)
        | true, c :: _ => (inner.1.map fun r => c :: r, true)

/-- Drain the pieces of the top-level `regdescr.split('|')` loop in order;
an exception while draining one piece aborts the loop (earlier yields
remain). -/
def piecesRun : List Str → List Str × Bool
  | [] => ([], false)
  | u :: us =>
    let r := pieceRunF u.length u
    if r.2 then (r.1, true)
    else
      let rest := piecesRun us
      (r.1 ++ rest.1, rest.2)

/-- Full drain of the generator `register_options(regdescr)` (benchmark.py
lines 45-80): the list of yielded register names (`none` is the Python
`None` yielded for an empty descriptor — the `yield None` is not followed by
a `return`, so the piece loop still runs afterwards) and whether draining
raises after those yields. -/
def registerOptionsRun (regdescr : Str) : List (Option Str) × Bool :=
  let pre : List (Option Str) := if regdescr.isEmpty then [none] else []
  let r := piecesRun (splitSep '|' regdescr)
  (pre ++ r.1.map some, r.2)

/-- `list(register_options(regdescr))`: the fully drained expansion, or the
exception raised while draining. -/
def register_options (regdescr : Str) : Except PyErr (List (Option Str)) :=
  let r := registerOptionsRun regdescr
  if r.2 then .error .attributeError else .ok r.1

/-! ## eventstr (benchmark.py lines 83-112)

Called with an event tuple of three components (the only call shape in
`Benchmark.analyze`).  A parameter dict is an insertion-ordered assoc list
whose values are `None` or an int; the code iterates `sorted(items())`, and
since dict keys are unique this is the key-sorted order. -/

abbrev Params := List (Str × Option Int)

/-- Python string `<=`-comparison (lexicographic on code points), as used by
`sorted` on the parameter keys. -/
def strLe : Str → Str → Bool
  | [], _ => true
  | _ :: _, [] => false
  | a :: s, b :: t => if a = b then strLe s t else decide (a < b)

def insertLe {α : Type} (le : α → α → Bool) (x : α) : List α → List α
  | [] => [x]
  | y :: l => if le y x then y :: insertLe le x l else x :: y :: l

/-- A stable insertion sort; on lists with pairwise distinct keys it agrees
with any sort, in particular with Python's `sorted`. -/
def insSort {α : Type} (le : α → α → Bool) : List α → List α
  | [] => []
  | x :: l => insertLe le x (insSort le l)

/-- `sorted(event_tuple[2].items())`: dict items sorted by key (keys are
unique in a dict, so the value components never get compared). -/
def sortParams (ps : Params) : Params := insSort (fun a b => strLe a.1 b.1) ps

/-- Python `hex(v)`: lowercase hexadecimal digits with a `0x` prefix and a
leading `-` for negative values. -/
def pyHex (v : Int) : Str :=
  if v < 0 then '-' :: '0' :: 'x' :: Nat.toDigits 16 v.natAbs
  else '0' :: 'x' :: Nat.toDigits 16 v.toNat

/-- One rendered parameter: `k += "={}".format(hex(v))` when the value is an
int, the bare key otherwise. -/
def paramSeg (kv : Str × Option Int) : Str :=
  match kv.2 with
  | some v => kv.1 ++ '=' :: pyHex v
  | none => kv.1

/-- `eventstr` (benchmark.py lines 83-112) on a three-component event tuple.
`if parameters:` is false for `None` and for an empty dict. -/
def eventstr (t : Str × Str × Option Params) : Str :=
  let event_dscr := [t.1, t.2.1]
  let event_dscr :=
    match t.2.2 with
    | none => event_dscr
    | some ps => if ps.isEmpty then event_dscr else event_dscr ++ (sortParams ps).map paramSeg
  List.intercalate [':'] event_dscr

/-! ## build_minimal_runs (benchmark.py lines 115-144) -/

/-- De-duplication by list comprehension
`[e for i, e in enumerate(events) if events.index(e) == i]`
(benchmark.py line 118): keep an element exactly when its position is its
first occurrence. -/
def pyDedup {α : Type} [DecidableEq α] (l : List α) : List α :=
  (l.enum.filter fun ie => decide (pyIndexOf l ie.2 = ie.1)).map (·.2)

/-- Spec-side "de-duplicate, first occurrence wins", written with a `seen`
accumulator.  `pyDedup_eq_firstWins` below shows the source comprehension
computes exactly this. -/
def firstWinsAux {α : Type} [DecidableEq α] (seen : List α) : List α → List α
  | [] => []
  | a :: l => if a ∈ seen then firstWinsAux seen l else a :: firstWinsAux (seen ++ [a]) l

def firstWins {α : Type} [DecidableEq α] (l : List α) : List α := firstWinsAux [] l

section Scheduler

variable {P : Type} [DecidableEq P]

/-- An input event tuple `(event, registers, parameters)`.  The parameter
component is opaque to the scheduler (it is only compared for equality and
copied), so it is an arbitrary type with decidable equality. -/
abbrev Event (P : Type) := Str × Str × P

/-- A scheduled entry `(event, possible_reg, parameters)` as stored in a
run; the register is `none` for the `None` yielded by an empty
descriptor. -/
abbrev RunEntry (P : Type) := Str × Option Str × P

/-- The inner dict of one run: concrete register → scheduled entry. -/
abbrev RunDict (P : Type) := List (Option Str × RunEntry P)

/-- State of the scheduling loop: `scheduled_runs`, `scheduled_events`,
`cur_run`. -/
structure SchedState (P : Type) where
  runs : List (Nat × RunDict P)
  scheduled : List (Event P)
  cur : Nat

instance {P : Type} [DecidableEq P] : DecidableEq (SchedState P) := fun a b =>
  decidable_of_iff (a.runs = b.runs ∧ a.scheduled = b.scheduled ∧ a.cur = b.cur)
    (by cases a; cases b; simp)

/-- The `for possible_reg in register_options(registers)` loop: scan the
drained candidate stream for the first register that is not a key of the
current run dict `s` and break there; reaching the end of the stream either
falls through (`ok none`) or hits the exception pending in the generator. -/
def scanPlace (s : RunDict P) : List (Option Str) → Bool → Except PyErr (Option (Option Str))
  | [], err => if err then .error .attributeError else .ok none
  | r :: tl, err => if (alookup s r).isSome then scanPlace s tl err else .ok (some r)

/-- One full `for event_tpl in events:` sweep at the current run index
(benchmark.py lines 125-138).  `s = scheduled_runs.setdefault(cur_run, {})`
runs inside the register loop, so the run dict is created exactly when the
candidate stream yields at least once. -/
def sweep : List (Event P) → SchedState P → Except PyErr (SchedState P)
  | [], st => .ok st
  | ev :: rest, st =>
    if ev ∈ st.scheduled then sweep rest st
    else
      let drained := registerOptionsRun ev.2.1
      match drained.1 with
      | [] => if drained.2 then .error .attributeError else sweep rest st
      | _ :: _ =>
        let s := (alookup st.runs st.cur).getD []
        let runs1 :=
          if (alookup st.runs st.cur).isSome then st.runs else st.runs ++ [(st.cur, [])]
        match scanPlace s drained.1 drained.2 with
        | .error e => .error e
        | .ok none => sweep rest { st with runs := runs1 }
        | .ok (some r) =>
          sweep rest
            { runs := aset runs1 st.cur (s ++ [(r, (ev.1, r, ev.2.2))]),
              scheduled := st.scheduled ++ [ev],
              cur := st.cur }

/-- The `while len(scheduled_events) != len(events):` loop (benchmark.py
lines 124-139), with fuel counting sweeps; `cur_run += 1` after each
sweep. -/
def schedLoop (events : List (Event P)) : Nat → SchedState P → Res (SchedState P)
  | 0, st => if st.scheduled.length = events.length then .ok st else .fuelOut
  | fuel + 1, st =>
    if st.scheduled.length = events.length then .ok st
    else
      match sweep events st with
      | .error e => .exn e
      | .ok st' => schedLoop events fuel { st' with cur := st'.cur + 1 }

/-- `build_minimal_runs` (benchmark.py lines 115-144).  The final
`[list(v.values()) for v in scheduled_runs.values()]` collapses each run
dict to its entries in insertion order. -/
def build_minimal_runs (fuel : Nat) (events : List (Event P)) : Res (List (List (RunEntry P))) :=
  match schedLoop (pyDedup events) fuel ⟨[], [], 0⟩ with
  | .ok st => .ok (st.runs.map fun kv => kv.2.map (·.2))
  | .exn e => .exn e
  | .fuelOut => .fuelOut

end Scheduler


/-! ## Benchmark.perfctr output parsing (benchmark.py lines 240-261)

Each output line is split on commas.  The first `try` records
`results[line[0]] = float(line[1])` (ValueError → `pass`, a missing field →
`continue`).  The second `try` reads `int(line[2])` and, when the first two
fields match `[A-Z0-9_]+` and `[A-Z0-9]+`, performs
`results.setdefault(line[0], {})` followed by
`results[line[0]][line[1]] = value` — which is an uncaught `TypeError`
whenever `results[line[0]]` currently holds a float. -/

def isWs (c : Char) : Bool :=
  c = ' ' || c = '\t' || c = '\n' || c = '\r' || c = '\x0b' || c = '\x0c'

/-- Python `str.strip()` as applied by `float`/`int` conversion. -/
def stripWs (s : Str) : Str :=
  ((s.dropWhile isWs).reverse.dropWhile isWs).reverse

/-- Split a leading `+`/`-` sign; `true` means negative. -/
def matchSign : Str → Bool × Str
  | '-' :: t => (true, t)
  | '+' :: t => (false, t)
  | t => (false, t)

def asciiLower (c : Char) : Char :=
  if 'A' ≤ c ∧ c ≤ 'Z' then Char.ofNat (c.toNat + 32) else c

def lowerStr (s : Str) : Str := s.map asciiLower

def digitsVal (s : Str) : Nat :=
  s.foldl (fun n c => n * 10 + (c.toNat - '0'.toNat)) 0

/-- The value of a Python float; finite values are exact rationals. -/
inductive PyFloat where
  | fin (q : ℚ)
  | inf (neg : Bool)
  | nan
deriving DecidableEq

/-- CPython `float(str)` on the strings arising here: optional surrounding
whitespace, optional sign, then `inf`/`infinity`/`nan` (case-insensitive) or
a decimal literal `d* [. d*] [(e|E) [sign] d+]` with at least one mantissa
digit.  (CPython additionally accepts underscore digit separators, which
never occur in likwid output and are not modelled.) -/
def pyFloat (s : Str) : Option PyFloat :=
  let t := stripWs s
  let signed := matchSign t
  let low := lowerStr signed.2
  if low = "inf".toList ∨ low = "infinity".toList then some (.inf signed.1)
  else if low = "nan".toList then some .nan
  else
    let ip := signed.2.takeWhile Char.isDigit
    let r1 := signed.2.dropWhile Char.isDigit
    let fp := match r1 with
      | '.' :: r => r.takeWhile Char.isDigit
      | _ => []
    let r2 := match r1 with
      | '.' :: r => r.dropWhile Char.isDigit
      | _ => r1
    if ip.isEmpty && fp.isEmpty then none
    else
      let mant : ℚ := (digitsVal ip : ℚ) + (digitsVal fp : ℚ) / (10 : ℚ) ^ fp.length
      let withSign : ℚ → ℚ := fun q => if signed.1 then -q else q
      match r2 with
      | [] => some (.fin (withSign mant))
      | e :: r3 =>
        if e = 'e' ∨ e = 'E' then
          let esigned := matchSign r3
          let ed := esigned.2.takeWhile Char.isDigit
          let r5 := esigned.2.dropWhile Char.isDigit
          if ed.isEmpty || !r5.isEmpty then none
          else
            let v := if esigned.1 then mant / (10 : ℚ) ^ digitsVal ed
                     else mant * (10 : ℚ) ^ digitsVal ed
            some (.fin (withSign v))
        else none

/-- CPython `int(str)`: optional whitespace, optional sign, one or more
decimal digits (underscore separators not modelled). -/
def pyInt (s : Str) : Option Int :=
  let t := stripWs s
  let signed := matchSign t
  if signed.2.isEmpty || !signed.2.all Char.isDigit then none
  else some (if signed.1 then -(digitsVal signed.2 : Int) else (digitsVal signed.2 : Int))

/-- `re.fullmatch(r'[A-Z0-9_]+', s)`. -/
def evPat (s : Str) : Bool :=
  !s.isEmpty && s.all fun c => decide (('A' ≤ c ∧ c ≤ 'Z') ∨ ('0' ≤ c ∧ c ≤ '9') ∨ c = '_')

/-- `re.fullmatch(r'[A-Z0-9]+', s)`. -/
def regPat (s : Str) : Bool :=
  !s.isEmpty && s.all fun c => decide (('A' ≤ c ∧ c ≤ 'Z') ∨ ('0' ≤ c ∧ c ≤ '9'))

/-- A value in the perfctr results dict: a float metric or a nested dict of
per-register integer counters. -/
inductive PCVal where
  | metric (v : PyFloat)
  | counters (d : List (Str × Int))
deriving DecidableEq

/-- `try: results[line[0]] = float(line[1]) except ValueError: pass` —
record a derived metric when the field parses as a float, keep the dict
unchanged otherwise. -/
def recordMetric (results : List (Str × PCVal)) (f0 : Str) (m : Option PyFloat) :
    List (Str × PCVal) :=
  match m with
  | some v => aset results f0 (.metric v)
  | none => results

/-- `results.setdefault(line[0], {})` followed by
`results[line[0]][line[1]] = counter_value`: appends a fresh one-entry
counter dict for an absent event name, updates the nested dict in place for
an existing one, and raises the uncaught `TypeError` of item assignment on
a float when the name currently holds a metric. -/
def recordRaw (results1 : List (Str × PCVal)) (f0 reg : Str) (n : Int) :
    Except PyErr (List (Str × PCVal)) :=
  match alookup results1 f0 with
  | none => .ok (aset results1 f0 (.counters [(reg, n)]))
  | some (.counters d) => .ok (aset results1 f0 (.counters (aset d reg n)))
  | some (.metric _) => .error .typeError

/-- The loop body of `Benchmark.perfctr` for one output line, translated
from the two `try`/`except` blocks. -/
def stepLine (results : List (Str × PCVal)) (line : Str) : Except PyErr (List (Str × PCVal)) :=
  let fs := splitSep ',' line
  let f0 := fs.headD []
  match fs[1]? with
  | none => .ok results
  | some f1 =>
    let results1 := recordMetric results f0 (pyFloat f1)
    match fs[2]? with
    | none => .ok results1
    | some f2 =>
      match pyInt f2 with
      | none => .ok results1
      | some n =>
        if evPat f0 && regPat f1 then recordRaw results1 f0 f1 n
        else .ok results1

/-- The parsing loop of `Benchmark.perfctr` over all output lines. -/
def perfctrGo (results : List (Str × PCVal)) : List Str → Except PyErr (List (Str × PCVal))
  | [] => .ok results
  | line :: rest =>
    match stepLine results line with
    | .error e => .error e
    | .ok r1 => perfctrGo r1 rest

/-- The result-dict construction of `Benchmark.perfctr` (benchmark.py lines
240-261) as a function of the tool's output lines. -/
def perfctrParse (lines : List Str) : Except PyErr (List (Str × PCVal)) :=
  perfctrGo [] lines

/-- Shape-directed restatement of one line of parsing, following the spec's
wording: classify the line first (derived-metric shape: the second field
parses as a float; raw-counter shape: the field patterns match and the third
field parses as an integer), then record the metric, then record the raw
counter — raising a type fault when the event name is, at that point, bound
to a float metric.  `stepLine_eq_specStep` relates this to the source
translation. -/
def specStep (results : List (Str × PCVal)) (line : Str) : Except PyErr (List (Str × PCVal)) :=
  let fs := splitSep ',' line
  let f0 := fs.headD []
  let metricShape : Option PyFloat := fs[1]? >>= pyFloat
  let rawShape : Option (Str × Int) :=
    match fs[1]?, fs[2]? with
    | some f1, some f2 =>
      if evPat f0 && regPat f1 then (pyInt f2).map (fun n => (f1, n)) else none
    | _, _ => none
  let results1 := recordMetric results f0 metricShape
  match rawShape with
  | none => .ok results1
  | some (reg, n) => recordRaw results1 f0 reg n

def specParseGo (results : List (Str × PCVal)) : List Str → Except PyErr (List (Str × PCVal))
  | [] => .ok results
  | line :: rest =>
    match specStep results line with
    | .error e => .error e
    | .ok r1 => specParseGo r1 rest

/-- Shape-directed restatement of the whole parse. -/
def specParse (lines : List Str) : Except PyErr (List (Str × PCVal)) :=
  specParseGo [] lines

/-! ## The calibration loop of Benchmark.analyze (benchmark.py lines 271-287)

Python floats are modelled as exact rationals; the executor (one
`perfctr(..., group="MEM")` call followed by reading
`mem_results['Runtime (RDTSC) [s]']`) is abstracted as a function from the
repetition count to the reported runtime. -/

/-- State of the calibration loop. -/
structure CalibState where
  runtime : ℚ
  time_per_repetition : ℚ
  repetitions : ℚ
deriving DecidableEq

/-- Python `a // b` on floats: `ZeroDivisionError` on a zero divisor,
floor of the quotient otherwise. -/
def pyFloorDiv (a b : ℚ) : Except PyErr ℚ :=
  if b = 0 then .error .zeroDivisionError else .ok ((⌊a / b⌋ : ℤ) : ℚ)

/-- Python `a / b`: `ZeroDivisionError` on a zero divisor. -/
def pyDivQ (a b : ℚ) : Except PyErr ℚ :=
  if b = 0 then .error .zeroDivisionError else .ok (a / b)

/-- One iteration of the calibration `while` body (benchmark.py lines
278-286): `repetitions = 0.2 // time_per_repetition` when
`time_per_repetition == 0.0` (a float floor-division by zero), else
`repetitions *= 10`; then run the probe and recompute runtime and
time-per-repetition. -/
def calibStep (exec : ℚ → ℚ) (st : CalibState) : Except PyErr CalibState := do
  let reps ←
    if st.time_per_repetition = 0 then pyFloorDiv 0.2 st.time_per_repetition
    else .ok (st.repetitions * 10)
  let rt := exec reps
  let tpr ← pyDivQ rt reps
  .ok ⟨rt, tpr, reps⟩

/-- The `while runtime < 0.15:` loop with fuel. -/
def calibLoop (exec : ℚ → ℚ) : Nat → CalibState → Res CalibState
  | 0, st => if st.runtime < 0.15 then .fuelOut else .ok st
  | fuel + 1, st =>
    if st.runtime < 0.15 then
      match calibStep exec st with
      | .error e => .exn e
      | .ok st' => calibLoop exec fuel st'
    else .ok st

/-- The calibration phase of `Benchmark.analyze` (benchmark.py lines
271-287), started from `runtime = 0.0`, `time_per_repetition = 0.2 / 10.0`,
`repetitions = 10`. -/
def calibrate (exec : ℚ → ℚ) (fuel : Nat) : Res CalibState :=
  calibLoop exec fuel ⟨0, 0.2 / 10, 10⟩

/-! ## Counter-to-symbol resolution of Benchmark.analyze (benchmark.py
lines 313-319)

```
for sym, ctr in event_counters.items():
    event, regs, parameter = ctr[0], register_options(ctr[1]), ctr[2]
    for r in regs:
        if r in measured_ctrs[event]:
            event_counter_results[sym] = measured_ctrs[event][r]
```
The inner loop has no `break`: every candidate register present in the
mapping overwrites the binding, so the last match wins.  `measured_ctrs` is
the merged perfctr result dict, whose values are floats or nested counter
dicts; `measured_ctrs[event]` raises `KeyError` for an absent event (on the
first drained candidate), and `r in <float>` raises `TypeError`. -/

section Resolve

variable {P : Type} [DecidableEq P]

/-- The `for r in regs:` loop over the drained candidate stream for one
symbol, threading the `event_counter_results` dict `acc`. -/
def scanRegs (measured : List (Str × PCVal)) (event : Str) (sym : Str)
    (acc : List (Str × Int)) : List (Option Str) → Bool → Except PyErr (List (Str × Int))
  | [], err => if err then .error .attributeError else .ok acc
  | r :: tl, err =>
    match alookup measured event with
    | none => .error (.keyErr event)
    | some (.metric _) => .error .typeError
    | some (.counters d) =>
      match r with
      | none => scanRegs measured event sym acc tl err
      | some k =>
        match alookup d k with
        | some v => scanRegs measured event sym (aset acc sym v) tl err
        | none => scanRegs measured event sym acc tl err

/-- The `for sym, ctr in event_counters.items():` loop, threading the
`event_counter_results` dict. -/
def resolveGo (measured : List (Str × PCVal)) :
    List (Str × Event P) → List (Str × Int) → Except PyErr (List (Str × Int))
  | [], acc => .ok acc
  | (sym, ctr) :: rest, acc =>
    let drained := registerOptionsRun ctr.2.1
    match scanRegs measured ctr.1 sym acc drained.1 drained.2 with
    | .error e => .error e
    | .ok acc' => resolveGo measured rest acc'

/-- The construction of `event_counter_results` in `Benchmark.analyze`
(benchmark.py lines 313-319). -/
def resolveSymbols (ec : List (Str × Event P)) (measured : List (Str × PCVal)) :
    Except PyErr (List (Str × Int)) :=
  resolveGo measured ec []

end Resolve

/-- Spec-side description of what the no-`break` resolution loop computes
for one symbol: the counter value of the last candidate register (in
expansion order) present in the counter dict `d`. -/
def lastPresent (d : List (Str × Int)) : List (Option Str) → Option Int
  | [] => none
  | r :: tl =>
    match lastPresent d tl with
    | some v => some v
    | none => r.bind fun k => alookup d k

/-- Total number of scheduled entries across all run dicts. -/
def entriesCount {κ β : Type} (l : List (κ × List β)) : Nat :=
  (l.map fun kv => kv.2.length).sum

/-- First-wins de-duplication restricted to a predicate: keep the first
occurrence of every element satisfying `K`, in order.  This is a proof
device relating the `enumerate`/`index` comprehension of `pyDedup` to
`firstWins` (see `pyDedupGen_eq_fwK`). -/
def fwK {α : Type} [DecidableEq α] (K : α → Bool) : List α → List α
  | [] => []
  | b :: t => if K b then b :: fwK (fun e => K e && decide (e ≠ b)) t else fwK K t

/-- The loop invariant of `build_minimal_runs` over the de-duplicated event
list `events`: the bookkeeping list `scheduled_events` has no duplicates and
stays inside `events`; run indices are unique; within every run dict the
register keys are unique and each stored entry carries its own key as its
register; the total number of stored entries equals the number of scheduled
events; every scheduled event has a stored entry in some run; and no run
dict is empty (a fresh run dict is created only when a candidate stream is
about to place into it, and placement into an empty dict always
succeeds). -/
structure SchedInv {P : Type} [DecidableEq P] (events : List (Event P))
    (st : SchedState P) : Prop where
  nodupSched : st.scheduled.Nodup
  schedSub : ∀ ev ∈ st.scheduled, ev ∈ events
  nodupKeys : (st.runs.map Prod.fst).Nodup
  innerKeys : ∀ kv ∈ st.runs, (kv.2.map Prod.fst).Nodup
  entryReg : ∀ kv ∈ st.runs, ∀ p ∈ kv.2, p.2.2.1 = p.1
  count : entriesCount st.runs = st.scheduled.length
  covered : ∀ ev ∈ st.scheduled, ∃ kv ∈ st.runs, ∃ r, (r, (ev.1, r, ev.2.2)) ∈ kv.2
  nonempty : ∀ kv ∈ st.runs, kv.2 ≠ []

/-! # Theorems -/

/-- A matched token consumes at least one character. -/
theorem tokenizeHead_shrinks : ∀ (u : Str) (cur : List Char) (rest : Str),
    tokenizeHead u = some (cur, rest) → rest.length < u.length := by
  intro u cur rest h
  cases u with
  | nil => cases h
  | cons c cs =>
    simp only [tokenizeHead] at h
    split_ifs at h with h1 h2
    · simp only [Option.some.injEq, Prod.mk.injEq] at h
      obtain ⟨-, hr⟩ := h
      subst hr
      simp only [List.length_drop, List.length_cons]
      omega
    · simp only [Option.some.injEq, Prod.mk.injEq] at h
      obtain ⟨-, hr⟩ := h
      subst hr
      simp

/-- Fuel stability of `pieceRunF`: any fuel of at least the string length
(in particular the `u.length` used everywhere) computes the same drain, so
the fuel is only a structural-recursion device and not part of the model. -/
theorem pieceRunF_congr : ∀ (n : Nat) (u : Str) (f g : Nat), u.length ≤ n →
    u.length ≤ f → u.length ≤ g → pieceRunF f u = pieceRunF g u := by
  intro n
  induction n with
  | zero =>
    intro u f g hn _ _
    have hu : u = [] := List.length_eq_zero.mp (Nat.le_zero.mp hn)
    subst hu
    cases f <;> cases g <;> rfl
  | succ n ih =>
    intro u f g hn hf hg
    cases u with
    | nil => cases f <;> cases g <;> rfl
    | cons c rest =>
      obtain ⟨f', rfl⟩ : ∃ f', f = f' + 1 := ⟨f - 1, by simp at hf; omega⟩
      obtain ⟨g', rfl⟩ : ∃ g', g = g' + 1 := ⟨g - 1, by simp at hg; omega⟩
      cases htok : tokenizeHead (c :: rest) with
      | none => simp [pieceRunF, htok]
      | some pr =>
        obtain ⟨current, rest'⟩ := pr
        have hlt := tokenizeHead_shrinks _ _ _ htok
        simp only [List.length_cons] at hn hf hg hlt
        have h1 : rest'.length ≤ n := by omega
        have h2 : rest'.length ≤ f' := by omega
        have h3 : rest'.length ≤ g' := by omega
        simp only [pieceRunF, htok]
        rw [ih rest' f' g' h1 h2 h3]

/-- **C6** (confirmed): the expander computes exactly the specified ordered
expansions.  The four dash-range examples are computed by the group
tokenizer `group_iterator` (the spec's `expand` on bare groups), the bracket
and union examples by `register_options`; `CBOX[0-3]C[01]` expands to its
eight elements in row-major order (outer group varying slowest), and the
reversed range in `0B-A1` is empty rather than an error. -/
theorem c6_expander_examples :
    group_iterator "a-f".toList = "abcdef".toList ∧
    group_iterator "148".toList = "148".toList ∧
    group_iterator "7-9ab".toList = "789ab".toList ∧
    group_iterator "0B-A1".toList = "01".toList ∧
    register_options "PMC[0-3]".toList =
      .ok [some "PMC0".toList, some "PMC1".toList, some "PMC2".toList, some "PMC3".toList] ∧
    register_options "CBOX[0-3]C[01]".toList =
      .ok [some "CBOX0C0".toList, some "CBOX0C1".toList, some "CBOX1C0".toList,
           some "CBOX1C1".toList, some "CBOX2C0".toList, some "CBOX2C1".toList,
           some "CBOX3C0".toList, some "CBOX3C1".toList] ∧
    register_options "PMC[0-1]|PMC[23]".toList =
      .ok [some "PMC0".toList, some "PMC1".toList, some "PMC2".toList, some "PMC3".toList] := by
  refine ⟨by decide, by decide, by decide, by decide, by decide, by decide, by decide⟩

/-- **C5** (code bug): `register_options` is *not* total.  On the empty
descriptor it yields the `None` marker and then — because the `yield None`
is not followed by a `return` — falls into the piece loop, where `re.match`
on the empty piece returns `None` and the subsequent `.group` call raises
`AttributeError`.  Fully enumerating the empty expansion therefore raises
instead of producing exactly `[None]`.  Malformed bracket groups do
degenerate to literal characters as claimed (last two conjuncts). -/
theorem c5_empty_descriptor_raises :
    registerOptionsRun "".toList = ([none], true) ∧
    register_options "".toList = .error .attributeError ∧
    register_options "PMC[".toList = .ok [some "PMC[".toList] ∧
    register_options "[]X".toList = .ok [some "[]X".toList] := by
  refine ⟨by decide, by decide, by decide, by decide⟩

/-- **C9** (code bug): when a required symbol's event is absent from the
combined raw-counter mapping, the resolution loop of `Benchmark.analyze`
evaluates `measured_ctrs[event]` and raises a bare `KeyError` — there is no
explicit, named "missing counter" error in the code. -/
theorem c9_missing_event_raw_keyerror :
    resolveSymbols [("s".toList, ("EV".toList, "PMC0".toList, ()))] [] =
      .error (.keyErr "EV".toList) := by
  decide

/-- **C3** (code bug): the calibration loop divides by zero.  With an
executor reporting runtime `0` the first probe sets
`time_per_repetition = 0`, and the next iteration evaluates
`repetitions = 0.2 // time_per_repetition`, a float floor division by zero
that raises `ZeroDivisionError` — the very branch the claim says avoids a
zero divisor.  With a runtime strictly proportional to the repetition count
(here `reps / 1000`) the loop terminates and indeed reaches
`time_per_repetition * repetitions = (1/1000) * 1000 ≥ 0.15`. -/
theorem c3_calibration_divides_by_zero :
    calibrate (fun _ => 0) 2 = .exn .zeroDivisionError ∧
    calibrate (fun reps => reps / 1000) 5 = .ok ⟨1, 1/1000, 1000⟩ ∧
    (1/1000 : ℚ) * 1000 ≥ 0.15 := by
  refine ⟨?_, ?_, by norm_num⟩
  · norm_num [calibrate, calibLoop, calibStep, pyFloorDiv, pyDivQ, Bind.bind, Except.bind]
  · norm_num [calibrate, calibLoop, calibStep, pyFloorDiv, pyDivQ, Bind.bind, Except.bind]

/-- A sweep over the single event `("E", "[b-a]", ())` never changes the
state once nothing is scheduled: the descriptor `[b-a]` is a reversed range
expanding to no candidate registers, so the event is skipped. -/
theorem sweep_ba_fixed (st : SchedState Unit) (h : st.scheduled = []) :
    sweep [(("E".toList : Str), "[b-a]".toList, ())] st = .ok st := by
  have hro : registerOptionsRun ['[', 'b', '-', 'a', ']'] = ([], false) := by decide
  simp [sweep, h, hro]

/-- The scheduling loop on that event spins without ever scheduling it. -/
theorem schedLoop_ba_spin :
    ∀ (fuel : Nat) (st : SchedState Unit), st.scheduled = [] →
      schedLoop [(("E".toList : Str), "[b-a]".toList, ())] fuel st = .fuelOut := by
  intro fuel
  induction fuel with
  | zero =>
    intro st h
    simp [schedLoop, h]
  | succ n ih =>
    intro st h
    rw [schedLoop]
    rw [if_neg (by simp [h])]
    rw [sweep_ba_fixed st h]
    exact ih _ h

/-- **C2** (code bug): an event whose register descriptor expands to zero
candidate registers (here the reversed dash range `[b-a]`) is never
scheduled, and `build_minimal_runs` keeps sweeping an ever-increasing run
index forever: for every fuel bound the `while` loop is still running.  No
scheduling-failure error exists in the code. -/
theorem c2_zero_candidates_loops_forever (fuel : Nat) :
    build_minimal_runs fuel [(("E".toList : Str), "[b-a]".toList, ())] = .fuelOut := by
  have hd : pyDedup [(("E".toList : Str), "[b-a]".toList, ())] =
      [(("E".toList : Str), "[b-a]".toList, ())] := by decide
  unfold build_minimal_runs
  rw [hd, schedLoop_ba_spin fuel _ rfl]

/-- One parsed line of `Benchmark.perfctr` behaves exactly as the
shape-directed description `specStep`. -/
theorem stepLine_eq_specStep (res : List (Str × PCVal)) (line : Str) :
    stepLine res line = specStep res line := by
  simp only [stepLine, specStep, List.headD_eq_head?_getD]
  cases h1 : (splitSep ',' line)[1]? with
  | none => rfl
  | some f1 =>
    cases h2 : (splitSep ',' line)[2]? with
    | none => simp
    | some f2 =>
      cases hpi : pyInt f2 with
      | none => simp [hpi]
      | some n =>
        by_cases hpat : (evPat ((splitSep ',' line).head?.getD []) && regPat f1) = true
        · simp [hpi, hpat]
        · simp [hpi, hpat]

/-- The whole parse loop coincides with its shape-directed restatement. -/
theorem perfctrGo_eq_specParseGo : ∀ (lines : List Str) (res : List (Str × PCVal)),
    perfctrGo res lines = specParseGo res lines := by
  intro lines
  induction lines with
  | nil => intro res; rfl
  | cons l rest ih =>
    intro res
    simp only [perfctrGo, specParseGo, ← stepLine_eq_specStep]
    cases stepLine res l with
    | error e => rfl
    | ok r1 => exact ih r1

/-- **C8** (corrected), counterexample: parsing is *not* total.  On the
line `A,123,456` the second field both parses as a float and matches the
register pattern, so the line first records the metric `A → 123.0` and then
attempts `results['A']['123'] = 456` on that float, raising an uncaught
`TypeError` instead of being recorded (or ignored). -/
theorem c8_counterexample_both_shapes_raise :
    perfctrParse ["A,123,456".toList] = .error .typeError := by decide

/-- **C8** (amended): parsing is shape-directed as described — a line whose
second field parses as a float is recorded as a derived metric, a
raw-counter-shaped line is additionally recorded under event and register,
and anything else is silently ignored — except that a raw-counter-shaped
line whose event name is at that point bound to a float metric (in
particular any line matching both shapes at once, or a raw-counter line
preceded by a metric line of the same name, second conjunct) raises an
uncaught type fault.  `specParse` states exactly this discipline, and the
parse equals it on every list of output lines. -/
theorem c8_amended_shape_directed :
    (∀ lines : List Str, perfctrParse lines = specParse lines) ∧
    perfctrParse ["A,2.5".toList, "A,PMC0,7".toList] = .error .typeError :=
  ⟨fun lines => perfctrGo_eq_specParseGo lines [], by decide⟩

/-- Overwriting the same key twice keeps only the last value. -/
theorem aset_aset {κ ν : Type} [DecidableEq κ] (l : List (κ × ν)) (k : κ) (v w : ν) :
    aset (aset l k v) k w = aset l k w := by
  induction l with
  | nil => simp [aset]
  | cons p t ih =>
    obtain ⟨k', v'⟩ := p
    by_cases h : k' = k
    · simp [aset, h]
    · simp [aset, h, ih]

/-- What the breakless candidate loop computes for one symbol whose event is
present as a counter dict: the binding ends at the value of the *last*
candidate register present in the dict. -/
theorem scanRegs_last (ms : List (Str × PCVal)) (ev sym : Str) (d : List (Str × Int))
    (h : alookup ms ev = some (.counters d)) :
    ∀ (ys : List (Option Str)) (acc : List (Str × Int)),
      scanRegs ms ev sym acc ys false =
        .ok (match lastPresent d ys with
             | some v => aset acc sym v
             | none => acc) := by
  intro ys
  induction ys with
  | nil => intro acc; simp [scanRegs, lastPresent]
  | cons r tl ih =>
    intro acc
    cases r with
    | none =>
      simp only [scanRegs, h, lastPresent, ih, Option.none_bind]
      cases lastPresent d tl <;> simp
    | some k =>
      cases hk : alookup d k with
      | some v =>
        simp only [scanRegs, h, hk, lastPresent, ih, Option.some_bind]
        cases lastPresent d tl <;> simp [aset_aset]
      | none =>
        simp only [scanRegs, h, hk, lastPresent, ih, Option.some_bind]
        cases lastPresent d tl <;> simp

/-- **C4** (corrected), counterexample: with descriptor `PMC[01]` and both
`PMC0 → 1` and `PMC1 → 2` present for the event, the symbol is bound to `2`
— the value of the *last* matching register — not to the first matching
register's value `1` as the claim states (the loop has no `break`, so later
matches overwrite earlier ones). -/
theorem c4_counterexample_first_register :
    resolveSymbols [("s".toList, ("EV".toList, "PMC[01]".toList, ()))]
        [("EV".toList, .counters [("PMC0".toList, 1), ("PMC1".toList, 2)])] =
      .ok [("s".toList, 2)] ∧
    ¬ resolveSymbols [("s".toList, ("EV".toList, "PMC[01]".toList, ()))]
        [("EV".toList, .counters [("PMC0".toList, 1), ("PMC1".toList, 2)])] =
      .ok [("s".toList, 1)] := by
  refine ⟨by decide, by decide⟩

/-- **C4** (amended): when `analyze` resolves a required symbol against the
combined raw-counter mapping, the symbol is bound to the counter value of
the LAST register, in the symbol's descriptor-expansion order, present in
the mapping for that symbol's event (and left unbound when none is
present). -/
theorem c4_amended_last_register {P : Type} [DecidableEq P] (sym ev descr : Str) (p : P)
    (ms : List (Str × PCVal)) (ys : List (Option Str)) (d : List (Str × Int))
    (h1 : register_options descr = .ok ys)
    (h2 : alookup ms ev = some (.counters d)) :
    resolveSymbols [(sym, (ev, descr, p))] ms =
      .ok (match lastPresent d ys with
           | some v => [(sym, v)]
           | none => []) := by
  have hrun : registerOptionsRun descr = (ys, false) := by
    rcases hro : registerOptionsRun descr with ⟨ys', e⟩
    simp only [register_options, hro] at h1
    cases e with
    | true => simp at h1
    | false =>
      simp at h1
      rw [h1]
  simp only [resolveSymbols, resolveGo, hrun]
  rw [scanRegs_last ms ev sym d h2 ys []]
  cases lastPresent d ys <;> simp [resolveGo, aset]

/-- Witness for `c4_amended_last_register` at a concrete input. -/
theorem c4_amended_last_register_witness :
    register_options "PMC[01]".toList = .ok [some "PMC0".toList, some "PMC1".toList] ∧
    alookup [("EV".toList, PCVal.counters [("PMC0".toList, 3), ("PMC1".toList, 7)])]
        "EV".toList = some (.counters [("PMC0".toList, 3), ("PMC1".toList, 7)]) ∧
    resolveSymbols [("s".toList, ("EV".toList, "PMC[01]".toList, ()))]
        [("EV".toList, .counters [("PMC0".toList, 3), ("PMC1".toList, 7)])] =
      .ok [("s".toList, 7)] := by
  refine ⟨by decide, by decide, ?_⟩
  have h := c4_amended_last_register "s".toList "EV".toList "PMC[01]".toList ()
    [("EV".toList, .counters [("PMC0".toList, 3), ("PMC1".toList, 7)])]
    [some "PMC0".toList, some "PMC1".toList]
    [("PMC0".toList, 3), ("PMC1".toList, 7)] (by decide) (by decide)
  rw [h]
  decide

/-- Python string comparison is total. -/
theorem strLe_total : ∀ (s t : Str), strLe s t = true ∨ strLe t s = true := by
  intro s
  induction s with
  | nil => intro t; left; rfl
  | cons a s ih =>
    intro t
    cases t with
    | nil => right; rfl
    | cons b t' =>
      by_cases hab : a = b
      · subst hab
        rcases ih t' with h | h
        · left; simp [strLe, h]
        · right; simp [strLe, h]
      · rcases lt_or_gt_of_ne hab with h | h
        · left; simp [strLe, hab, h]
        · right; simp [strLe, Ne.symm hab, h]

/-- Python string comparison is transitive. -/
theorem strLe_trans : ∀ (s t u : Str), strLe s t = true → strLe t u = true →
    strLe s u = true := by
  intro s
  induction s with
  | nil => intro t u _ _; rfl
  | cons a s ih =>
    intro t u h1 h2
    cases t with
    | nil => simp [strLe] at h1
    | cons b t' =>
      cases u with
      | nil => simp [strLe] at h2
      | cons c u' =>
        by_cases hab : a = b <;> by_cases hbc : b = c
        · subst hab; subst hbc
          simp only [strLe, if_pos rfl] at h1 h2 ⊢
          exact ih t' u' h1 h2
        · subst hab
          simp only [strLe, if_pos rfl] at h1
          simp only [strLe, if_neg hbc, decide_eq_true_eq] at h2
          simp [strLe, hbc, h2]
        · subst hbc
          simp only [strLe, if_neg hab, decide_eq_true_eq] at h1
          simp [strLe, hab, h1]
        · simp only [strLe, if_neg hab, decide_eq_true_eq] at h1
          simp only [strLe, if_neg hbc, decide_eq_true_eq] at h2
          have hac : a < c := lt_trans h1 h2
          simp [strLe, ne_of_lt hac, hac]

/-- Python string comparison is antisymmetric. -/
theorem strLe_antisymm : ∀ (s t : Str), strLe s t = true → strLe t s = true → s = t := by
  intro s
  induction s with
  | nil =>
    intro t _ h2
    cases t with
    | nil => rfl
    | cons b t' => simp [strLe] at h2
  | cons a s ih =>
    intro t h1 h2
    cases t with
    | nil => simp [strLe] at h1
    | cons b t' =>
      by_cases hab : a = b
      · subst hab
        simp only [strLe, if_pos rfl] at h1 h2
        rw [ih t' h1 h2]
      · simp only [strLe, if_neg hab, decide_eq_true_eq] at h1
        simp only [strLe, if_neg (Ne.symm hab), decide_eq_true_eq] at h2
        exact absurd h2 (lt_asymm h1)

section SortLemmas

variable {α : Type} {le : α → α → Bool}

theorem insertLe_perm (x : α) (l : List α) : List.Perm (insertLe le x l) (x :: l) := by
  induction l with
  | nil => exact List.Perm.refl _
  | cons y t ih =>
    simp only [insertLe]
    by_cases h : le y x = true
    · rw [if_pos h]
      exact (ih.cons y).trans (List.Perm.swap x y t)
    · rw [if_neg h]

theorem insSort_perm (l : List α) : List.Perm (insSort le l) l := by
  induction l with
  | nil => exact List.Perm.refl _
  | cons x t ih => exact (insertLe_perm x (insSort le t)).trans (ih.cons x)

theorem insertLe_sorted (htot : ∀ a b, le a b = true ∨ le b a = true)
    (htrans : ∀ a b c, le a b = true → le b c = true → le a c = true)
    (x : α) : ∀ (l : List α), l.Pairwise (fun a b => le a b = true) →
      (insertLe le x l).Pairwise (fun a b => le a b = true) := by
  intro l
  induction l with
  | nil => intro _; simp [insertLe]
  | cons y t ih =>
    intro hl
    rcases List.pairwise_cons.mp hl with ⟨hy, ht⟩
    simp only [insertLe]
    by_cases h : le y x = true
    · rw [if_pos h]
      refine List.pairwise_cons.mpr ⟨?_, ih ht⟩
      intro z hz
      rcases List.mem_cons.mp ((insertLe_perm x t).mem_iff.mp hz) with rfl | hzt
      · exact h
      · exact hy z hzt
    · rw [if_neg h]
      have hxy : le x y = true := (htot x y).resolve_right h
      refine List.pairwise_cons.mpr ⟨?_, hl⟩
      intro z hz
      rcases List.mem_cons.mp hz with rfl | hzt
      · exact hxy
      · exact htrans x y z hxy (hy z hzt)

theorem insSort_sorted (htot : ∀ a b, le a b = true ∨ le b a = true)
    (htrans : ∀ a b c, le a b = true → le b c = true → le a c = true) :
    ∀ (l : List α), (insSort le l).Pairwise (fun a b => le a b = true) := by
  intro l
  induction l with
  | nil => exact List.Pairwise.nil
  | cons x t ih => exact insertLe_sorted htot htrans x (insSort le t) ih

end SortLemmas

theorem pairwise_and {α : Type} {R S : α → α → Prop} :
    ∀ (l : List α), l.Pairwise R → l.Pairwise S →
      l.Pairwise fun a b => R a b ∧ S a b := by
  intro l
  induction l with
  | nil => intro _ _; exact List.Pairwise.nil
  | cons a t ih =>
    intro h1 h2
    rcases List.pairwise_cons.mp h1 with ⟨h1a, h1t⟩
    rcases List.pairwise_cons.mp h2 with ⟨h2a, h2t⟩
    exact List.pairwise_cons.mpr ⟨fun b hb => ⟨h1a b hb, h2a b hb⟩, ih h1t h2t⟩

/-- With pairwise-distinct keys, sorting by key is invariant under
permutation of the parameter dict items: key-sorted order is unique. -/
theorem sortParams_perm_of_nodup (ps ps' : Params) (hp : List.Perm ps ps')
    (hnd : (ps.map Prod.fst).Nodup) : sortParams ps = sortParams ps' := by
  have htot : ∀ a b : Str × Option Int, strLe a.1 b.1 = true ∨ strLe b.1 a.1 = true :=
    fun a b => strLe_total a.1 b.1
  have htrans : ∀ a b c : Str × Option Int,
      strLe a.1 b.1 = true → strLe b.1 c.1 = true → strLe a.1 c.1 = true :=
    fun a b c => strLe_trans a.1 b.1 c.1
  have hnd' : (ps'.map Prod.fst).Nodup := ((hp.map Prod.fst).nodup_iff).mp hnd
  have hs1 := insSort_sorted htot htrans ps
  have hs2 := insSort_sorted htot htrans ps'
  have hnd1 : ((sortParams ps).map Prod.fst).Nodup :=
    (((insSort_perm ps).map Prod.fst).nodup_iff).mpr hnd
  have hnd2 : ((sortParams ps').map Prod.fst).Nodup :=
    (((insSort_perm ps').map Prod.fst).nodup_iff).mpr hnd'
  have hne1 : (sortParams ps).Pairwise (fun a b => a.1 ≠ b.1) :=
    List.pairwise_map.mp hnd1
  have hne2 : (sortParams ps').Pairwise (fun a b => a.1 ≠ b.1) :=
    List.pairwise_map.mp hnd2
  have hperm : List.Perm (sortParams ps) (sortParams ps') :=
    (insSort_perm ps).trans (hp.trans (insSort_perm ps').symm)
  haveI : IsAntisymm (Str × Option Int)
      (fun a b => strLe a.1 b.1 = true ∧ a.1 ≠ b.1) :=
    ⟨by
      intro a b hab hba
      exact absurd (strLe_antisymm a.1 b.1 hab.1 hba.1) hab.2⟩
  exact List.eq_of_perm_of_sorted hperm
    (pairwise_and _ hs1 hne1) (pairwise_and _ hs2 hne2)

/-- **C7** (confirmed): `eventstr` renders an event triple as
`NAME:REGISTER` followed by one colon-separated segment per parameter; the
two specified examples hold, and since parameters are emitted in key-sorted
order, the rendering is independent of the insertion order of a parameter
dict with (necessarily) distinct keys. -/
theorem c7_eventstr_rendering :
    eventstr ("L1D_REPLACEMENT".toList, "PMC0".toList, none) =
      "L1D_REPLACEMENT:PMC0".toList ∧
    eventstr ("MEM_UOPS_RETIRED_LOADS".toList, "PMC3".toList,
        some [("EDGEDETECT".toList, none), ("THRESHOLD".toList, some 2342)]) =
      "MEM_UOPS_RETIRED_LOADS:PMC3:EDGEDETECT:THRESHOLD=0x926".toList ∧
    ∀ (n r : Str) (ps ps' : Params), List.Perm ps ps' → (ps.map Prod.fst).Nodup →
      eventstr (n, r, some ps) = eventstr (n, r, some ps') := by
  refine ⟨by decide, by decide, ?_⟩
  intro n r ps ps' hp hnd
  have hsort := sortParams_perm_of_nodup ps ps' hp hnd
  rcases hps : ps with _ | ⟨q, qs⟩
  · subst hps
    have : ps' = [] := (List.Perm.eq_nil hp.symm)
    rw [this]
  · rcases hps' : ps' with _ | ⟨q', qs'⟩
    · subst hps'
      exact absurd (List.Perm.eq_nil (hps ▸ hp)) (by simp)
    · rw [← hps, ← hps']
      have hne : ps.isEmpty = false := by rw [hps]; rfl
      have hne' : ps'.isEmpty = false := by rw [hps']; rfl
      simp only [eventstr, hne, hne', Bool.false_eq_true, if_false, hsort]

/-- Witness for the permutation-invariance part of `c7_eventstr_rendering`
at a concrete pair of item orders. -/
theorem c7_eventstr_rendering_witness :
    (List.Perm ([("THRESHOLD".toList, some (2342 : Int)), ("EDGEDETECT".toList, none)] : Params)
      [("EDGEDETECT".toList, none), ("THRESHOLD".toList, some 2342)]) ∧
    ((([("THRESHOLD".toList, some (2342 : Int)), ("EDGEDETECT".toList, none)] : Params).map
      Prod.fst).Nodup) ∧
    eventstr ("MEM_UOPS_RETIRED_LOADS".toList, "PMC3".toList,
        some [("THRESHOLD".toList, some 2342), ("EDGEDETECT".toList, none)]) =
      eventstr ("MEM_UOPS_RETIRED_LOADS".toList, "PMC3".toList,
        some [("EDGEDETECT".toList, none), ("THRESHOLD".toList, some 2342)]) := by
  refine ⟨?_, by decide, ?_⟩
  · exact List.Perm.swap _ _ _
  · exact c7_eventstr_rendering.2.2 "MEM_UOPS_RETIRED_LOADS".toList "PMC3".toList
      _ _ (List.Perm.swap _ _ _) (by decide)

section AssocLemmas

variable {κ ν : Type} [DecidableEq κ]

theorem alookup_cons (k' : κ) (v' : ν) (t : List (κ × ν)) (k : κ) :
    alookup ((k', v') :: t) k = if k' = k then some v' else alookup t k := rfl

theorem aset_cons (k' : κ) (v' : ν) (t : List (κ × ν)) (k : κ) (v : ν) :
    aset ((k', v') :: t) k v = if k' = k then (k, v) :: t else (k', v') :: aset t k v := rfl

theorem alookup_none_iff (l : List (κ × ν)) (k : κ) :
    alookup l k = none ↔ k ∉ l.map Prod.fst := by
  induction l with
  | nil => simp [alookup]
  | cons p t ih =>
    obtain ⟨k', v'⟩ := p
    rw [alookup_cons]
    by_cases h : k' = k
    · subst h
      simp
    · rw [if_neg h]
      simp [ih, Ne.symm h]

theorem alookup_mem {l : List (κ × ν)} {k : κ} {v : ν} (h : alookup l k = some v) :
    (k, v) ∈ l := by
  induction l with
  | nil => cases h
  | cons p t ih =>
    obtain ⟨k', v'⟩ := p
    rw [alookup_cons] at h
    by_cases hk : k' = k
    · rw [if_pos hk] at h
      injection h with h'
      rw [← hk, ← h']
      exact List.mem_cons_self _ _
    · rw [if_neg hk] at h
      exact List.mem_cons_of_mem _ (ih h)

theorem alookup_of_mem_nodup {l : List (κ × ν)} {k : κ} {v : ν}
    (hnd : (l.map Prod.fst).Nodup) (h : (k, v) ∈ l) : alookup l k = some v := by
  induction l with
  | nil => cases h
  | cons p t ih =>
    obtain ⟨k', v'⟩ := p
    simp only [List.map_cons, List.nodup_cons] at hnd
    rw [alookup_cons]
    rcases List.mem_cons.mp h with heq | hmem
    · cases heq
      rw [if_pos rfl]
    · have hne : k' ≠ k := by
        intro hk
        subst hk
        exact hnd.1 (List.mem_map_of_mem Prod.fst hmem)
      rw [if_neg hne]
      exact ih hnd.2 hmem

theorem aset_of_none {l : List (κ × ν)} {k : κ} (v : ν) (h : alookup l k = none) :
    aset l k v = l ++ [(k, v)] := by
  induction l with
  | nil => rfl
  | cons p t ih =>
    obtain ⟨k', v'⟩ := p
    rw [alookup_cons] at h
    by_cases hk : k' = k
    · rw [if_pos hk] at h
      cases h
    · rw [if_neg hk] at h
      rw [aset_cons, if_neg hk, ih h]
      rfl

theorem keys_aset_of_some {l : List (κ × ν)} {k : κ} {s : ν} (v : ν)
    (h : alookup l k = some s) : (aset l k v).map Prod.fst = l.map Prod.fst := by
  induction l with
  | nil => cases h
  | cons p t ih =>
    obtain ⟨k', v'⟩ := p
    rw [alookup_cons] at h
    rw [aset_cons]
    by_cases hk : k' = k
    · rw [if_pos hk, hk]
      simp
    · rw [if_neg hk] at h
      rw [if_neg hk]
      simp [ih h]

theorem mem_aset_iff {l : List (κ × ν)} {k : κ} {v : ν} {kv : κ × ν}
    (hnd : (l.map Prod.fst).Nodup) :
    kv ∈ aset l k v ↔ (kv ∈ l ∧ kv.1 ≠ k) ∨ kv = (k, v) := by
  induction l with
  | nil =>
    simp only [aset, List.mem_singleton, List.not_mem_nil, false_and, false_or]
  | cons p t ih =>
    obtain ⟨k', v'⟩ := p
    simp only [List.map_cons, List.nodup_cons] at hnd
    rw [aset_cons]
    by_cases hk : k' = k
    · subst hk
      rw [if_pos rfl]
      constructor
      · intro hm
        rcases List.mem_cons.mp hm with rfl | hm'
        · exact Or.inr rfl
        · refine Or.inl ⟨List.mem_cons_of_mem _ hm', ?_⟩
          intro h1
          exact hnd.1 (h1 ▸ List.mem_map_of_mem Prod.fst hm')
      · rintro (⟨hm, hne⟩ | rfl)
        · rcases List.mem_cons.mp hm with rfl | hm'
          · exact absurd rfl hne
          · exact List.mem_cons_of_mem _ hm'
        · exact List.mem_cons_self _ _
    · rw [if_neg hk]
      constructor
      · intro hm
        rcases List.mem_cons.mp hm with rfl | hm'
        · exact Or.inl ⟨List.mem_cons_self _ _, by simpa using hk⟩
        · rcases (ih hnd.2).mp hm' with ⟨hm2, hne⟩ | rfl
          · exact Or.inl ⟨List.mem_cons_of_mem _ hm2, hne⟩
          · exact Or.inr rfl
      · rintro (⟨hm, hne⟩ | rfl)
        · rcases List.mem_cons.mp hm with rfl | hm'
          · exact List.mem_cons_self _ _
          · exact List.mem_cons_of_mem _ ((ih hnd.2).mpr (Or.inl ⟨hm', hne⟩))
        · exact List.mem_cons_of_mem _ ((ih hnd.2).mpr (Or.inr rfl))

end AssocLemmas

theorem entriesCount_aset_some {κ β : Type} [DecidableEq κ]
    {l : List (κ × List β)} {k : κ} {s : List β} (v : List β)
    (h : alookup l k = some s) :
    entriesCount (aset l k v) + s.length = entriesCount l + v.length := by
  induction l with
  | nil => cases h
  | cons p t ih =>
    obtain ⟨k', v'⟩ := p
    rw [alookup_cons] at h
    rw [aset_cons]
    by_cases hk : k' = k
    · rw [if_pos hk] at h
      injection h with h'
      rw [if_pos hk]
      simp [entriesCount, h']
      omega
    · rw [if_neg hk] at h
      rw [if_neg hk]
      simp only [entriesCount, List.map_cons, List.sum_cons]
      have := ih h
      simp only [entriesCount] at this
      omega

theorem entriesCount_append_single {κ β : Type} (l : List (κ × List β)) (k : κ)
    (s : List β) : entriesCount (l ++ [(k, s)]) = entriesCount l + s.length := by
  simp [entriesCount]

theorem alookup_append_right_none {κ ν : Type} [DecidableEq κ]
    {l : List (κ × ν)} {k : κ} (v : ν) (h : alookup l k = none) :
    alookup (l ++ [(k, v)]) k = some v := by
  induction l with
  | nil => simp [alookup]
  | cons p t ih =>
    obtain ⟨k', v'⟩ := p
    rw [alookup_cons] at h
    by_cases hk : k' = k
    · rw [if_pos hk] at h
      cases h
    · rw [if_neg hk] at h
      rw [List.cons_append, alookup_cons, if_neg hk]
      exact ih h

theorem mem_enumFrom_le {α : Type} : ∀ (l : List α) (n : Nat) (p : Nat × α),
    p ∈ l.enumFrom n → n ≤ p.1 := by
  intro l
  induction l with
  | nil => intro n p h; cases h
  | cons a t ih =>
    intro n p h
    have hcons : (a :: t).enumFrom n = (n, a) :: t.enumFrom (n + 1) := rfl
    rw [hcons] at h
    rcases List.mem_cons.mp h with rfl | h'
    · exact le_refl n
    · exact Nat.le_of_succ_le (ih (n + 1) p h')

theorem fwK_ext {α : Type} [DecidableEq α] :
    ∀ (l : List α) (K1 K2 : α → Bool), (∀ e, K1 e = K2 e) → fwK K1 l = fwK K2 l := by
  intro l
  induction l with
  | nil => intro _ _ _; rfl
  | cons b t ih =>
    intro K1 K2 h
    simp only [fwK, h b]
    by_cases hb : K2 b = true
    · rw [if_pos hb, if_pos hb]
      exact congrArg _ (ih _ _ (fun e => by rw [h e]))
    · rw [if_neg hb, if_neg hb]
      exact ih _ _ h

/-- The `enumerate`/`index` comprehension, restricted by a predicate `K` and
shifted by an offset, computes first-wins de-duplication restricted to
`K`. -/
theorem pyDedupGen_eq_fwK {α : Type} [DecidableEq α] :
    ∀ (l : List α) (K : α → Bool) (n : Nat),
      ((l.enumFrom n).filter fun p =>
        K p.2 && decide (pyIndexOf l p.2 + n = p.1)).map Prod.snd = fwK K l := by
  intro l
  induction l with
  | nil => intro K n; rfl
  | cons b t ih =>
    intro K n
    have hcons : (b :: t).enumFrom n = (n, b) :: t.enumFrom (n + 1) := rfl
    rw [hcons, List.filter_cons]
    have hhead : (K (n, b).2 && decide (pyIndexOf (b :: t) (n, b).2 + n = (n, b).1)) = K b := by
      simp [pyIndexOf]
    rw [hhead]
    have htail : (t.enumFrom (n + 1)).filter
          (fun p => K p.2 && decide (pyIndexOf (b :: t) p.2 + n = p.1)) =
        (t.enumFrom (n + 1)).filter
          (fun p => (K p.2 && decide (p.2 ≠ b)) && decide (pyIndexOf t p.2 + (n + 1) = p.1)) := by
      apply List.filter_congr
      intro p hp
      have hge := mem_enumFrom_le t (n + 1) p hp
      by_cases hpb : p.2 = b
      · have h0 : pyIndexOf (b :: t) p.2 = 0 := by simp [pyIndexOf, hpb]
        have hdec : decide (pyIndexOf (b :: t) p.2 + n = p.1) = false := by
          simp only [h0, decide_eq_false_iff_not]
          omega
        have hR : decide (p.2 ≠ b) = false := by simp [hpb]
        rw [hdec, hR]
        simp
      · have h1 : pyIndexOf (b :: t) p.2 = pyIndexOf t p.2 + 1 := by
          have hne : ¬ b = p.2 := fun h => hpb h.symm
          simp [pyIndexOf, hne]
        have heq2 : decide (pyIndexOf (b :: t) p.2 + n = p.1) =
            decide (pyIndexOf t p.2 + (n + 1) = p.1) := by
          rw [h1]
          apply decide_eq_decide.mpr
          constructor <;> (intro; omega)
        have hT : decide (p.2 ≠ b) = true := by simp [hpb]
        rw [heq2, hT, Bool.and_true]
    rw [htail]
    by_cases hKb : K b = true
    · rw [if_pos hKb]
      have hfw : fwK K (b :: t) = b :: fwK (fun e => K e && decide (e ≠ b)) t := by
        simp [fwK, hKb]
      rw [hfw, List.map_cons]
      exact congrArg _ (ih (fun e => K e && decide (e ≠ b)) (n + 1))
    · rw [if_neg hKb]
      have hf : K b = false := by simpa using hKb
      have hfw : fwK K (b :: t) = fwK K t := by simp [fwK, hf]
      rw [hfw]
      exact (ih (fun e => K e && decide (e ≠ b)) (n + 1)).trans (fwK_ext t _ _ (fun e => by
        by_cases he : e = b
        · subst he
          simp [hf]
        · simp [he]))

theorem pyDedup_eq_fwK {α : Type} [DecidableEq α] (l : List α) :
    pyDedup l = fwK (fun _ => true) l := by
  have h := pyDedupGen_eq_fwK l (fun _ => true) 0
  rw [← h]
  simp only [pyDedup]
  have hsnd : (fun ie : Nat × α => ie.2) = Prod.snd := rfl
  rw [hsnd]
  congr 1

theorem firstWinsAux_eq_fwK {α : Type} [DecidableEq α] :
    ∀ (l seen : List α), firstWinsAux seen l = fwK (fun e => decide (e ∉ seen)) l := by
  intro l
  induction l with
  | nil => intro seen; rfl
  | cons a t ih =>
    intro seen
    simp only [firstWinsAux, fwK]
    by_cases ha : a ∈ seen
    · rw [if_pos ha, if_neg (by simp [ha])]
      exact ih seen
    · rw [if_neg ha, if_pos (by simp [ha])]
      rw [ih (seen ++ [a])]
      refine congrArg _ (fwK_ext t _ _ (fun e => ?_))
      have hiff : (e ∉ seen ++ [a]) ↔ (e ∉ seen ∧ e ≠ a) := by simp [not_or]
      rw [decide_eq_decide.mpr hiff, Bool.decide_and]

/-- The de-duplication comprehension of benchmark.py line 118 keeps exactly
the first occurrence of every event, in order. -/
theorem pyDedup_eq_firstWins {α : Type} [DecidableEq α] (l : List α) :
    pyDedup l = firstWins l := by
  rw [pyDedup_eq_fwK, firstWins, firstWinsAux_eq_fwK]
  exact fwK_ext l _ _ (fun e => by simp)

/-- A successful placement scan returns a register not yet used in the run
dict. -/
theorem scanPlace_some_free {P : Type} [DecidableEq P] (s : RunDict P) :
    ∀ (ys : List (Option Str)) (err : Bool) (r : Option Str),
      scanPlace s ys err = .ok (some r) → alookup s r = none := by
  intro ys
  induction ys with
  | nil =>
    intro err r h
    by_cases herr : err = true
    · subst herr
      simp [scanPlace] at h
    · simp only [Bool.not_eq_true] at herr
      subst herr
      simp [scanPlace] at h
  | cons y tl ih =>
    intro err r h
    simp only [scanPlace] at h
    by_cases hy : (alookup s y).isSome = true
    · rw [if_pos hy] at h
      exact ih err r h
    · rw [if_neg hy] at h
      injection h with h2
      injection h2 with h3
      rw [← h3]
      exact Option.not_isSome_iff_eq_none.mp hy

/-- Scheduling one event into the current run preserves the loop invariant:
`runs1` is the run table after the `setdefault` (either unchanged, or with a
fresh empty dict appended for the current index), `s` is the current run
dict, and `r` a register not yet used in it. -/
theorem place_inv {P : Type} [DecidableEq P] (events : List (Event P))
    (st : SchedState P) (hinv : SchedInv events st) (ev : Event P)
    (hev : ev ∈ events) (hmem : ev ∉ st.scheduled)
    (runs1 : List (Nat × RunDict P)) (s : RunDict P) (r : Option Str)
    (hcase : (runs1 = st.runs ∧ alookup st.runs st.cur = some s) ∨
             (runs1 = st.runs ++ [(st.cur, [])] ∧ alookup st.runs st.cur = none ∧ s = []))
    (hfree : alookup s r = none) :
    SchedInv events
      ⟨aset runs1 st.cur (s ++ [(r, (ev.1, r, ev.2.2))]), st.scheduled ++ [ev], st.cur⟩ := by
  have hk1 : (runs1.map Prod.fst).Nodup := by
    rcases hcase with ⟨h1, _⟩ | ⟨h1, h2, _⟩
    · rw [h1]; exact hinv.nodupKeys
    · rw [h1, List.map_append, List.nodup_append]
      refine ⟨hinv.nodupKeys, List.nodup_singleton _, ?_⟩
      intro a ha hb
      simp only [List.map_cons, List.map_nil, List.mem_singleton] at hb
      subst hb
      exact (alookup_none_iff _ _).mp h2 ha
  have hlk : alookup runs1 st.cur = some s := by
    rcases hcase with ⟨h1, h2⟩ | ⟨h1, h2, h3⟩
    · rw [h1]; exact h2
    · rw [h1, h3]; exact alookup_append_right_none _ h2
  have hOld : ∀ kv, kv ∈ runs1 → kv.1 ≠ st.cur → kv ∈ st.runs := by
    rcases hcase with ⟨h1, _⟩ | ⟨h1, _, _⟩
    · intro kv hkv _; rw [h1] at hkv; exact hkv
    · intro kv hkv hne
      rw [h1] at hkv
      rcases List.mem_append.mp hkv with h | h
      · exact h
      · simp only [List.mem_singleton] at h
        exact absurd (congrArg Prod.fst h) hne
  have hsKeys : (s.map Prod.fst).Nodup := by
    rcases hcase with ⟨_, h2⟩ | ⟨_, _, h3⟩
    · exact hinv.innerKeys _ (alookup_mem h2)
    · rw [h3]; exact List.Pairwise.nil
  have hsReg : ∀ p ∈ s, p.2.2.1 = p.1 := by
    rcases hcase with ⟨_, h2⟩ | ⟨_, _, h3⟩
    · exact hinv.entryReg _ (alookup_mem h2)
    · rw [h3]; intro p hp; cases hp
  have hcount1 : entriesCount runs1 = entriesCount st.runs := by
    rcases hcase with ⟨h1, _⟩ | ⟨h1, _, _⟩
    · rw [h1]
    · rw [h1, entriesCount_append_single]
      simp
  set v := s ++ [(r, (ev.1, r, ev.2.2))] with hv
  have hvne : v ≠ [] := by simp [hv]
  have hmemNew : ∀ kv, kv ∈ aset runs1 st.cur v →
      (kv ∈ st.runs ∧ kv.1 ≠ st.cur) ∨ kv = (st.cur, v) := by
    intro kv hkv
    rcases (mem_aset_iff hk1).mp hkv with ⟨h1, h2⟩ | h1
    · exact Or.inl ⟨hOld kv h1 h2, h2⟩
    · exact Or.inr h1
  refine ⟨?_, ?_, ?_, ?_, ?_, ?_, ?_, ?_⟩
  · rw [List.nodup_append]
    refine ⟨hinv.nodupSched, List.nodup_singleton _, ?_⟩
    intro a ha hb
    simp only [List.mem_singleton] at hb
    subst hb
    exact hmem ha
  · intro e he
    rcases List.mem_append.mp he with h | h
    · exact hinv.schedSub e h
    · simp only [List.mem_singleton] at h
      subst h
      exact hev
  · rw [keys_aset_of_some v hlk]
    exact hk1
  · intro kv hkv
    rcases hmemNew kv hkv with ⟨h1, _⟩ | rfl
    · exact hinv.innerKeys kv h1
    · show (v.map Prod.fst).Nodup
      rw [hv, List.map_append, List.nodup_append]
      refine ⟨hsKeys, List.nodup_singleton _, ?_⟩
      intro a ha hb
      simp only [List.map_cons, List.map_nil, List.mem_singleton] at hb
      subst hb
      exact (alookup_none_iff _ _).mp hfree ha
  · intro kv hkv p hp
    rcases hmemNew kv hkv with ⟨h1, _⟩ | rfl
    · exact hinv.entryReg kv h1 p hp
    · rcases List.mem_append.mp hp with h | h
      · exact hsReg p h
      · simp only [List.mem_singleton] at h
        subst h
        rfl
  · have h1 := entriesCount_aset_some v hlk
    have h2 : v.length = s.length + 1 := by simp [hv]
    have h3 := hinv.count
    show entriesCount (aset runs1 st.cur v) = (st.scheduled ++ [ev]).length
    simp only [List.length_append, List.length_singleton]
    omega
  · intro e he
    rcases List.mem_append.mp he with h | h
    · rcases hinv.covered e h with ⟨kv, hkv, r0, hent⟩
      by_cases hc : kv.1 = st.cur
      · have hkv1 : kv ∈ runs1 := by
          rcases hcase with ⟨h1, _⟩ | ⟨h1, _, _⟩
          · rw [h1]; exact hkv
          · rw [h1]; exact List.mem_append_left _ hkv
        have hsome : alookup runs1 kv.1 = some kv.2 := alookup_of_mem_nodup hk1 hkv1
        rw [hc, hlk] at hsome
        injection hsome with h4
        refine ⟨(st.cur, v), (mem_aset_iff hk1).mpr (Or.inr rfl), r0, ?_⟩
        apply List.mem_append_left
        rw [h4]
        exact hent
      · refine ⟨kv, (mem_aset_iff hk1).mpr (Or.inl ⟨?_, hc⟩), r0, hent⟩
        rcases hcase with ⟨h1, _⟩ | ⟨h1, _, _⟩
        · rw [h1]; exact hkv
        · rw [h1]; exact List.mem_append_left _ hkv
    · simp only [List.mem_singleton] at h
      subst h
      refine ⟨(st.cur, v), (mem_aset_iff hk1).mpr (Or.inr rfl), r, ?_⟩
      exact List.mem_append_right _ (List.mem_singleton.mpr rfl)
  · intro kv hkv
    rcases hmemNew kv hkv with ⟨h1, _⟩ | rfl
    · exact hinv.nonempty kv h1
    · exact hvne

/-- One sweep preserves the scheduling invariant. -/
theorem sweep_inv {P : Type} [DecidableEq P] (events : List (Event P)) :
    ∀ (evs : List (Event P)) (st st' : SchedState P),
      (∀ e ∈ evs, e ∈ events) → SchedInv events st → sweep evs st = .ok st' →
      SchedInv events st' := by
  intro evs
  induction evs with
  | nil =>
    intro st st' _ hinv h
    simp only [sweep] at h
    injection h with h2
    rw [← h2]
    exact hinv
  | cons ev rest ih =>
    intro st st' hsub hinv h
    have hrest : ∀ e ∈ rest, e ∈ events := fun e he => hsub e (List.mem_cons_of_mem _ he)
    have hev : ev ∈ events := hsub ev (List.mem_cons_self _ _)
    simp only [sweep] at h
    by_cases hmem : ev ∈ st.scheduled
    · rw [if_pos hmem] at h
      exact ih st st' hrest hinv h
    · rw [if_neg hmem] at h
      rcases hdr : registerOptionsRun ev.2.1 with ⟨ys, err⟩
      rw [hdr] at h
      cases ys with
      | nil =>
        by_cases herr : err = true
        · subst herr
          simp at h
        · simp only [Bool.not_eq_true] at herr
          subst herr
          simp only [] at h
          exact ih st st' hrest hinv h
      | cons y ys' =>
        cases hlook : alookup st.runs st.cur with
        | some s =>
          simp only [hlook, Option.getD_some, Option.isSome_some, if_true] at h
          cases hscan : scanPlace s (y :: ys') err with
          | error e =>
            rw [hscan] at h
            simp at h
          | ok o =>
            rw [hscan] at h
            cases o with
            | none =>
              simp only [] at h
              exact ih st st' hrest hinv h
            | some r =>
              simp only [] at h
              exact ih _ st' hrest
                (place_inv events st hinv ev hev hmem st.runs s r
                  (Or.inl ⟨rfl, hlook⟩) (scanPlace_some_free s (y :: ys') err r hscan)) h
        | none =>
          simp only [hlook, Option.getD_none, Option.isSome_none, Bool.false_eq_true,
            if_false, scanPlace, alookup, Option.isSome_none] at h
          exact ih _ st' hrest
            (place_inv events st hinv ev hev hmem (st.runs ++ [(st.cur, [])]) [] y
              (Or.inr ⟨rfl, hlook, rfl⟩) rfl) h

/-- The scheduling loop preserves the invariant and exits with every event
scheduled. -/
theorem schedLoop_inv {P : Type} [DecidableEq P] (events : List (Event P)) :
    ∀ (fuel : Nat) (st st' : SchedState P),
      SchedInv events st → schedLoop events fuel st = .ok st' →
      SchedInv events st' ∧ st'.scheduled.length = events.length := by
  intro fuel
  induction fuel with
  | zero =>
    intro st st' hinv h
    simp only [schedLoop] at h
    by_cases hlen : st.scheduled.length = events.length
    · rw [if_pos hlen] at h
      injection h with h2
      rw [← h2]
      exact ⟨hinv, hlen⟩
    · rw [if_neg hlen] at h
      cases h
  | succ n ih =>
    intro st st' hinv h
    simp only [schedLoop] at h
    by_cases hlen : st.scheduled.length = events.length
    · rw [if_pos hlen] at h
      injection h with h2
      rw [← h2]
      exact ⟨hinv, hlen⟩
    · rw [if_neg hlen] at h
      cases hsweep : sweep events st with
      | error e =>
        rw [hsweep] at h
        cases h
      | ok st1 =>
        rw [hsweep] at h
        have hinv1 : SchedInv events st1 :=
          sweep_inv events events st st1 (fun e he => he) hinv hsweep
        have hinv2 : SchedInv events { st1 with cur := st1.cur + 1 } :=
          ⟨hinv1.nodupSched, hinv1.schedSub, hinv1.nodupKeys, hinv1.innerKeys,
           hinv1.entryReg, hinv1.count, hinv1.covered, hinv1.nonempty⟩
        exact ih _ st' hinv2 h

/-- The invariant holds in the initial state. -/
theorem schedInv_init {P : Type} [DecidableEq P] (events : List (Event P)) :
    SchedInv events (⟨[], [], 0⟩ : SchedState P) :=
  ⟨List.Pairwise.nil, fun _ h => absurd h (List.not_mem_nil _),
   List.Pairwise.nil, fun _ h => absurd h (List.not_mem_nil _),
   fun _ h => absurd h (List.not_mem_nil _), rfl,
   fun _ h => absurd h (List.not_mem_nil _), fun _ h => absurd h (List.not_mem_nil _)⟩

/-- A successful `build_minimal_runs` comes from a final loop state that
satisfies the invariant with every de-duplicated event scheduled. -/
theorem build_minimal_runs_ok {P : Type} [DecidableEq P] (fuel : Nat)
    (events : List (Event P)) (runs : List (List (RunEntry P)))
    (h : build_minimal_runs fuel events = .ok runs) :
    ∃ st : SchedState P, SchedInv (pyDedup events) st ∧
      st.scheduled.length = (pyDedup events).length ∧
      runs = st.runs.map (fun kv => kv.2.map (·.2)) := by
  unfold build_minimal_runs at h
  cases hloop : schedLoop (pyDedup events) fuel ⟨[], [], 0⟩ with
  | ok st =>
    rw [hloop] at h
    injection h with h2
    obtain ⟨hinv, hlen⟩ := schedLoop_inv (pyDedup events) fuel _ st (schedInv_init _) hloop
    exact ⟨st, hinv, hlen, h2.symm⟩
  | exn e => rw [hloop] at h; cases h
  | fuelOut => rw [hloop] at h; cases h

theorem length_le_entriesCount {κ β : Type} :
    ∀ (l : List (κ × List β)), (∀ kv ∈ l, kv.2 ≠ []) → l.length ≤ entriesCount l := by
  intro l
  induction l with
  | nil => intro _; exact le_refl 0
  | cons kv t ih =>
    intro h
    have h1 : kv.2 ≠ [] := h kv (List.mem_cons_self _ _)
    have h2 : 1 ≤ kv.2.length := by
      cases hk : kv.2 with
      | nil => exact absurd hk h1
      | cons a b => simp
    have h3 := ih (fun p hp => h p (List.mem_cons_of_mem _ hp))
    simp only [List.length_cons, entriesCount, List.map_cons, List.sum_cons]
    simp only [entriesCount] at h3
    omega

/-- **C1** (confirmed): for every input event list, a successfully returned
run list satisfies: within each run no register (concrete or the `None`
marker) is assigned twice; the runs together hold exactly one scheduled
entry per de-duplicated input event (first occurrence wins) — their sizes
sum to the number of de-duplicated events, and every de-duplicated event
`(e, d, p)` appears as an entry `(e, r, p)` in some run; and the output is
deterministic — the embedding is a pure function, so equal input lists give
equal results. -/
theorem c1_minimal_runs_invariants {P : Type} [DecidableEq P] (fuel : Nat)
    (events : List (Event P)) (runs : List (List (RunEntry P)))
    (h : build_minimal_runs fuel events = .ok runs) :
    (∀ run ∈ runs, (run.map fun e => e.2.1).Nodup) ∧
    (runs.map List.length).sum = (firstWins events).length ∧
    (∀ ev ∈ firstWins events, ∃ run ∈ runs, ∃ r, (ev.1, r, ev.2.2) ∈ run) ∧
    (∀ events', events' = events → build_minimal_runs fuel events' = .ok runs) := by
  obtain ⟨st, hinv, hlen, hruns⟩ := build_minimal_runs_ok fuel events runs h
  have hperm : List.Perm st.scheduled (pyDedup events) := by
    have hsub : st.scheduled ⊆ pyDedup events := fun e he => hinv.schedSub e he
    have hsp := List.Nodup.subperm hinv.nodupSched hsub
    exact hsp.perm_of_length_le (by rw [hlen])
  have hfw : pyDedup events = firstWins events := pyDedup_eq_firstWins events
  refine ⟨?_, ?_, ?_, ?_⟩
  · intro run hrun
    rw [hruns] at hrun
    rcases List.mem_map.mp hrun with ⟨kv, hkv, rfl⟩
    rw [List.map_map]
    have hmc : kv.2.map
          ((fun e : RunEntry P => e.2.1) ∘ (fun p : Option Str × RunEntry P => p.2)) =
        kv.2.map Prod.fst := by
      apply List.map_congr_left
      intro p hp
      exact hinv.entryReg kv hkv p hp
    rw [hmc]
    exact hinv.innerKeys kv hkv
  · rw [hruns, List.map_map]
    have hmc : st.runs.map (List.length ∘ fun kv => kv.2.map (·.2)) =
        st.runs.map (fun kv => kv.2.length) := by
      apply List.map_congr_left
      intro kv _
      simp
    rw [hmc]
    show entriesCount st.runs = _
    rw [hinv.count, hlen, hfw]
  · intro ev hev
    rw [← hfw] at hev
    have hsched : ev ∈ st.scheduled := hperm.mem_iff.mpr hev
    rcases hinv.covered ev hsched with ⟨kv, hkv, r, hent⟩
    refine ⟨kv.2.map (·.2), ?_, r, ?_⟩
    · rw [hruns]
      exact List.mem_map_of_mem _ hkv
    · exact List.mem_map_of_mem _ hent
  · intro events' he
    rw [he]
    exact h

/-- Witness for `c1_minimal_runs_invariants`: three events (one a
duplicate) on `PMC[01]` schedule into a single run. -/
theorem c1_minimal_runs_invariants_witness :
    build_minimal_runs 1
        [("A".toList, "PMC[01]".toList, ()), ("B".toList, "PMC[01]".toList, ()),
         ("A".toList, "PMC[01]".toList, ())] =
      .ok [[("A".toList, some "PMC0".toList, ()), ("B".toList, some "PMC1".toList, ())]] ∧
    (∀ run ∈ [[("A".toList, some "PMC0".toList, ()), ("B".toList, some "PMC1".toList, ())]],
      (run.map fun e : RunEntry Unit => e.2.1).Nodup) ∧
    ([[("A".toList, some "PMC0".toList, ()), ("B".toList, some "PMC1".toList, ())]].map
        List.length).sum =
      (firstWins [("A".toList, "PMC[01]".toList, ()), ("B".toList, "PMC[01]".toList, ()),
        ("A".toList, "PMC[01]".toList, ())]).length ∧
    (∀ ev ∈ firstWins [("A".toList, "PMC[01]".toList, ()), ("B".toList, "PMC[01]".toList, ()),
        ("A".toList, "PMC[01]".toList, ())],
      ∃ run ∈ [[("A".toList, some "PMC0".toList, ()), ("B".toList, some "PMC1".toList, ())]],
        ∃ r, (ev.1, r, ev.2.2) ∈ run) ∧
    (∀ events', events' = [("A".toList, "PMC[01]".toList, ()), ("B".toList, "PMC[01]".toList, ()),
        ("A".toList, "PMC[01]".toList, ())] →
      build_minimal_runs 1 events' =
        .ok [[("A".toList, some "PMC0".toList, ()), ("B".toList, some "PMC1".toList, ())]]) := by
  have h : build_minimal_runs 1
      [("A".toList, "PMC[01]".toList, ()), ("B".toList, "PMC[01]".toList, ()),
       ("A".toList, "PMC[01]".toList, ())] =
      .ok [[("A".toList, some "PMC0".toList, ()), ("B".toList, some "PMC1".toList, ())]] := by
    decide
  have hc := c1_minimal_runs_invariants 1 _ _ h
  exact ⟨h, hc.1, hc.2.1, hc.2.2.1, hc.2.2.2⟩

/-- **C10** (confirmed): provided every input event's register descriptor
expands to at least one candidate register, every returned run is non-empty
and the number of runs never exceeds the number of de-duplicated input
events.  (The proof shows the conclusion holds for any successful return:
a run dict is only created when a candidate stream is about to place into
it, and placing into a fresh empty dict always succeeds.) -/
theorem c10_runs_nonempty_and_bounded {P : Type} [DecidableEq P] (fuel : Nat)
    (events : List (Event P)) (runs : List (List (RunEntry P)))
    (_hexp : ∀ ev ∈ events, (registerOptionsRun ev.2.1).1 ≠ [])
    (h : build_minimal_runs fuel events = .ok runs) :
    (∀ run ∈ runs, run ≠ []) ∧ runs.length ≤ (firstWins events).length := by
  obtain ⟨st, hinv, hlen, hruns⟩ := build_minimal_runs_ok fuel events runs h
  constructor
  · intro run hrun
    rw [hruns] at hrun
    rcases List.mem_map.mp hrun with ⟨kv, hkv, rfl⟩
    intro hnil
    exact hinv.nonempty kv hkv (List.map_eq_nil_iff.mp hnil)
  · have hle : runs.length ≤ entriesCount st.runs := by
      rw [hruns, List.length_map]
      exact length_le_entriesCount st.runs hinv.nonempty
    refine hle.trans ?_
    rw [hinv.count, hlen, pyDedup_eq_firstWins]

/-- Witness for `c10_runs_nonempty_and_bounded`: two events with non-empty
expansions needing two runs. -/
theorem c10_runs_nonempty_and_bounded_witness :
    (∀ ev ∈ [("X".toList, "PMC0".toList, ()), ("Y".toList, "PMC0".toList, ())],
      (registerOptionsRun (ev : Event Unit).2.1).1 ≠ []) ∧
    build_minimal_runs 2 [("X".toList, "PMC0".toList, ()), ("Y".toList, "PMC0".toList, ())] =
      .ok [[("X".toList, some "PMC0".toList, ())], [("Y".toList, some "PMC0".toList, ())]] ∧
    (∀ run ∈ [[("X".toList, some "PMC0".toList, ())], [("Y".toList, some "PMC0".toList, ())]],
      run ≠ []) ∧
    [[("X".toList, some "PMC0".toList, ())], [("Y".toList, some "PMC0".toList, ())]].length ≤
      (firstWins [("X".toList, "PMC0".toList, ()), ("Y".toList, "PMC0".toList, ())]).length := by
  have hexp : ∀ ev ∈ [("X".toList, "PMC0".toList, ()), ("Y".toList, "PMC0".toList, ())],
      (registerOptionsRun (ev : Event Unit).2.1).1 ≠ [] := by decide
  have h : build_minimal_runs 2
      [("X".toList, "PMC0".toList, ()), ("Y".toList, "PMC0".toList, ())] =
      .ok [[("X".toList, some "PMC0".toList, ())], [("Y".toList, some "PMC0".toList, ())]] := by
    decide
  have hc := c10_runs_nonempty_and_bounded 2 _ _ hexp h
  exact ⟨hexp, h, hc.1, hc.2⟩
